import Mathlib

/-!
Verification development for the inscription transaction-construction engine
(`src/App.jsx`, `src/wallets.js`).  The JavaScript core is shallowly embedded:
numbers used for monetary amounts and fee arithmetic become `ℚ` (JS numbers,
exact on the integral/ half-integral values that occur here), byte buffers
become `List Nat`, script element arrays become `List ScriptElem`, and a
JS function that can `throw` returns an `Option` (with `none` for the thrown
error).  External collaborators (network fetches, the bitcoinjs / tapscript
libraries, wallet providers) are passed in as parameters, exactly at the
points where the source awaits or calls them.
-/

/-- One element of the script array built by `getInscriptionScript` /
`getRevealScript`: an opcode string such as `'OP_0'`, a small number used as a
field tag (`1`, `2`, `7`, `9`, `11`), or a byte buffer. -/
inductive ScriptElem where
  | op : String → ScriptElem
  | num : Nat → ScriptElem
  | bytes : List Nat → ScriptElem
deriving DecidableEq, Repr

/-- `new TextEncoder().encode(s)`: UTF-8 bytes of a string. -/
def textEncode (s : String) : List Nat :=
  s.toUTF8.toList.map (fun b => b.toNat)

/-- JS `ToInt32` coercion, applied implicitly by the `&` and `>>` operators of
`intToLeBytes`: reduce mod `2^32` into the signed 32-bit range. -/
def toInt32 (v : Int) : Int :=
  (v + 2147483648) % 4294967296 - 2147483648

/-- `intToLeBytes` (App.jsx:59): little-endian minimal-length encoding via
`while (value > 0) { bytes.push(value & 0xff); value >>= 8; }`.
`value & 0xff` is `(ToInt32 value).emod 256` and `value >>= 8` is the
arithmetic shift `(ToInt32 value).ediv 256` (floor division, since the divisor
is positive).  For `value ≤ 0` the loop body never runs and the result is the
empty buffer. -/
def intToLeBytes (value : Int) : List Nat :=
  if h : 0 < value then
    (toInt32 value % 256).toNat :: intToLeBytes (toInt32 value / 256)
  else []
termination_by value.toNat
decreasing_by
  simp only [toInt32]
  omega

/-- A hex digit's value, as consumed by `Buffer.from(txHash, 'hex')`. -/
def hexDigit (c : Char) : Option Nat :=
  if '0' ≤ c ∧ c ≤ '9' then some (c.toNat - '0'.toNat)
  else if 'a' ≤ c ∧ c ≤ 'f' then some (c.toNat - 'a'.toNat + 10)
  else if 'A' ≤ c ∧ c ≤ 'F' then some (c.toNat - 'A'.toNat + 10)
  else none

/-- `Buffer.from(s, 'hex')`: decode consecutive hex-digit pairs, stopping at
the first pair that is not valid hex. -/
def hexPairs : List Char → List Nat
  | c1 :: c2 :: rest =>
    match hexDigit c1, hexDigit c2 with
    | some a, some b => (16 * a + b) :: hexPairs rest
    | _, _ => []
  | _ => []

/-- JS `parseInt` restricted to the decimal digit strings that occur in
delegate ids: `none` models the `NaN` result on an empty / non-digit string
(and `intToLeBytes NaN` is the empty buffer, since `NaN > 0` is false). -/
def parseIntDec (s : String) : Option Int :=
  let ds := s.toList.takeWhile (fun c => c.isDigit)
  if ds.isEmpty then none
  else some (ds.foldl (fun acc c => 10 * acc + (c.toNat - '0'.toNat : Int)) 0)

/-- `getDelegateBytes` (App.jsx:52): split the delegate id on `"i"`, hex-decode
and reverse the transaction hash, and append the little-endian output index. -/
def getDelegateBytes (delegateId : String) : List Nat :=
  let parts := delegateId.splitOn "i"
  let txHashBytes := (hexPairs (parts.headD "").toList).reverse
  let indexBytes :=
    match parseIntDec (parts.getD 1 "") with
    | some n => intToLeBytes n
    | none => []
  txHashBytes ++ indexBytes

/-- The `Inscription` record (App.jsx:68).  `content` is a byte buffer;
`postage` is a satoshi amount defaulting to 546; `pointer` is a byte offset.
The commented-out fields of the source (`parent`, `metadata`, `rune`) are
omitted, as is its `metadata` branch, which pushes nothing. -/
structure Inscription where
  content : Option (List Nat) := none
  contentType : Option String := none
  contentEncoding : Option String := none
  metaprotocol : Option String := none
  delegate : Option String := none
  pointer : Option Int := none
  postage : Int := 546
deriving DecidableEq, Repr

/-- The content chunking loop of `getInscriptionScript` (App.jsx:117):
`for (let i = 0; i < content.length; i += 520) chunks.push(content.subarray(i, i + 520))`. -/
def chunkList (l : List Nat) : List (List Nat) :=
  if h : l = [] then []
  else l.take 520 :: chunkList (l.drop 520)
termination_by l.length
decreasing_by
  simp only [List.length_drop]
  have := List.length_pos.mpr h
  omega

/-- `Inscription.getInscriptionScript` (App.jsx:93): the envelope.  Prologue
`OP_0 OP_IF "ord"`; then tag/value pairs in source order for each present
field; then, for non-empty content, an empty-push separator (`"OP_0"`)
followed by the 520-byte chunks; finally `OP_ENDIF`. -/
def Inscription.getInscriptionScript (insc : Inscription) : List ScriptElem :=
  [ScriptElem.op "OP_0", ScriptElem.op "OP_IF", ScriptElem.bytes (textEncode "ord")]
  ++ (match insc.contentType with
      | some ct => [ScriptElem.num 1, ScriptElem.bytes (textEncode ct)]
      | none => [])
  ++ (match insc.pointer with
      | some p => [ScriptElem.num 2, ScriptElem.bytes (intToLeBytes p)]
      | none => [])
  ++ (match insc.contentEncoding with
      | some ce => [ScriptElem.num 9, ScriptElem.bytes (textEncode ce)]
      | none => [])
  ++ (match insc.metaprotocol with
      | some mp => [ScriptElem.num 7, ScriptElem.bytes (textEncode mp)]
      | none => [])
  ++ (match insc.delegate with
      | some d => [ScriptElem.num 11, ScriptElem.bytes (getDelegateBytes d)]
      | none => [])
  ++ (match insc.content with
      | some c => if 0 < c.length then ScriptElem.op "OP_0" :: (chunkList c).map ScriptElem.bytes else []
      | none => [])
  ++ [ScriptElem.op "OP_ENDIF"]

/-- Sum of the `postage` fields of a list of inscriptions. -/
def postageSum (l : List Inscription) : Int :=
  (l.map (fun i => i.postage)).sum

/-- The loop of `getRevealScript` (App.jsx:133): element `i` (for `i > 0`) has
its `pointer` overwritten with the running postage sum before its envelope is
appended.  The JS loop mutates the inscriptions in place; the pair returned
here carries the built script together with the mutated list. -/
def revealGo : List Inscription → Nat → Int → List ScriptElem × List Inscription
  | [], _, _ => ([], [])
  | insc :: rest, i, running =>
    let insc' := if 0 < i then { insc with pointer := some running } else insc
    let tail := revealGo rest (i + 1) (running + insc'.postage)
    (insc'.getInscriptionScript ++ tail.1, insc' :: tail.2)

/-- `getRevealScript` (App.jsx:130): `[revealPublicKey, 'OP_CHECKSIG']`
followed by every inscription's envelope; returns the script together with the
in-place-updated inscription list. -/
def getRevealScript (inscriptions : List Inscription) (revealPublicKey : List Nat) :
    List ScriptElem × List Inscription :=
  let body := revealGo inscriptions 0 0
  (ScriptElem.bytes revealPublicKey :: ScriptElem.op "OP_CHECKSIG" :: body.1, body.2)

/-- A UTXO as consumed by the coin selector: the `{txid, vout, value}` fields
from the mempool listing, plus the `effectiveValue` attached (mutated in
place in the source) by `appendUtxoEffectiveValues`.  JS numbers are embedded
as `ℚ` since effective values are half-integral at odd fee rates. -/
structure Utxo where
  txid : String
  vout : Nat
  value : ℚ
  effectiveValue : ℚ
deriving DecidableEq, Repr

/-- Sum of the effective values of a UTXO list. -/
def effSum (l : List Utxo) : ℚ :=
  (l.map (fun u => u.effectiveValue)).sum

/-- Sum of the raw values of a UTXO list. -/
def valueSum (l : List Utxo) : ℚ :=
  (l.map (fun u => u.value)).sum

/-- The payment-address classification produced by `getAddressType`
(App.jsx:786); the script parsing itself is external library code. -/
inductive AddressType where
  | P2TR
  | P2WPKH
  | P2SH_P2WPKH
  | P2PKH
deriving DecidableEq, Repr

/-- The per-input virtual-size constant of `appendUtxoEffectiveValues`
(App.jsx:693) for each address type. -/
def inputVSize : AddressType → ℚ
  | .P2TR => 40 + 1 + 66 / 4
  | .P2WPKH => 40 + 1 + 108 / 4
  | .P2SH_P2WPKH => 40 + 24 + 108 / 4
  | .P2PKH => 40 + 108

/-- `appendUtxoEffectiveValues` (App.jsx:693): set each UTXO's
`effectiveValue` to `value - feeRate * inputVSize(addressType)`.  The source
mutates the array in place and returns it; here the updated list is built. -/
def appendUtxoEffectiveValues (utxos : List Utxo) (addressType : AddressType) (feeRate : ℚ) :
    List Utxo :=
  utxos.map fun u => { u with effectiveValue := u.value - feeRate * inputVSize addressType }

/-- The mutable search state of `branchAndBound` (App.jsx:748):
`none` is `bestSolution = null / minWaste = Infinity`; `some (b, w)` is
`bestSolution = b / minWaste = w` (the two are always updated together). -/
abbrev BnbState := Option (List Utxo × ℚ)

/-- The base case of `explore`: record `selectedUtxos` when its waste beats
the best seen so far (any finite waste beats the initial `Infinity`). -/
def updateBest (selected : List Utxo) (waste : ℚ) (st : BnbState) : BnbState :=
  match st with
  | none => some (selected, waste)
  | some (b, w) => if waste < w then some (selected, waste) else some (b, w)

/-- The index/suffix pairs `(remainingUtxos[i], remainingUtxos.slice(i+1))`
traversed by the branching loop of `explore` (App.jsx:771). -/
def pairsWithRest : List Utxo → List (Utxo × List Utxo)
  | [] => []
  | u :: rest => (u, rest) :: pairsWithRest rest

/-- The recursive `explore` of `branchAndBound` (App.jsx:752).  Checks, in
source order: the base case (`currentSum >= targetAmount`), the
unreachable-target prune, the too-deep prune (`depth > remainingUtxos.length`),
and otherwise branches on every index `i`, threading the mutable
`bestSolution/minWaste` state left to right.  `fuel` is an extra structural
argument: every recursive call passes a strictly shorter `remaining`, so with
`fuel` initialised to `remaining.length` (as `branchAndBound` does) the `0`
branch — which returns the state unchanged, just like branching over an empty
`remaining` — is only ever reached with `remaining = []`, and the function
agrees with the unbounded JS recursion. -/
def explore (target : ℚ) (fuel : Nat) (remaining selected : List Utxo) (currentSum : ℚ)
    (depth : Nat) (st : BnbState) : BnbState :=
  if target ≤ currentSum then
    updateBest selected (currentSum - target) st
  else if currentSum + effSum remaining < target then
    st
  else if remaining.length < depth then
    st
  else
    match fuel with
    | 0 => st
    | fuel' + 1 =>
      (pairsWithRest remaining).foldl
        (fun acc p =>
          explore target fuel' p.2 (selected ++ [p.1]) (currentSum + p.1.effectiveValue)
            (depth + 1) acc)
        st

/-- `branchAndBound` (App.jsx:748): run `explore(utxos, [], 0, 0)` from the
initial `bestSolution = null` state and return the best solution found. -/
def branchAndBound (utxos : List Utxo) (targetAmount : ℚ) : Option (List Utxo) :=
  (explore targetAmount utxos.length utxos [] 0 0 none).map (fun r => r.1)

/-- Stable insertion of a UTXO into a list ascending by `effectiveValue`. -/
def insertByEff (u : Utxo) : List Utxo → List Utxo
  | [] => [u]
  | v :: rest =>
    if u.effectiveValue ≤ v.effectiveValue then u :: v :: rest
    else v :: insertByEff u rest

/-- `utxos.sort((a, b) => a.effectiveValue - b.effectiveValue)`
(App.jsx:719): a stable ascending sort by effective value (JS `Array.sort`
is stable), embedded as insertion sort. -/
def sortByEff : List Utxo → List Utxo
  | [] => []
  | u :: rest => insertByEff u (sortByEff rest)

/-- Step 1 of `selectUtxos` (App.jsx:722): scan for the first UTXO whose
effective value equals the target exactly. -/
def exactMatch (utxos : List Utxo) (targetAmount : ℚ) : Option Utxo :=
  utxos.find? (fun u => decide (u.effectiveValue = targetAmount))

/-- Step 3 of `selectUtxos` (App.jsx:735): the greedy accumulator.  Pushes
UTXOs in order onto `selected`, returning as soon as the running total
reaches the target; falls off the end (the source then throws
`"Insufficient funds"`, embedded as `none`). -/
def accumGo (targetAmount : ℚ) : List Utxo → List Utxo → ℚ → Option (List Utxo)
  | [], _, _ => none
  | u :: rest, selected, totalInput =>
    let selected' := selected ++ [u]
    let totalInput' := totalInput + u.effectiveValue
    if targetAmount ≤ totalInput' then some selected'
    else accumGo targetAmount rest selected' totalInput'

/-- `selectUtxos` (App.jsx:718): sort ascending by effective value, then try
in order: single-UTXO exact match, branch and bound, greedy accumulator.
`none` embeds the thrown `"Insufficient funds"` error. -/
def selectUtxos (utxos : List Utxo) (targetAmount : ℚ) : Option (List Utxo) :=
  match exactMatch (sortByEff utxos) targetAmount with
  | some u => some [u]
  | none =>
    match branchAndBound (sortByEff utxos) targetAmount with
    | some selected => some selected
    | none => accumGo targetAmount (sortByEff utxos) [] 0

/-- JS `Math.ceil` on an exact rational. -/
def mathCeil (x : ℚ) : ℚ := (⌈x⌉ : ℤ)

/-- `getCommitTransaction` (App.jsx:512), restricted to its own computation.
The values obtained from external collaborators become parameters: the
commit address derived by the tapscript library from the tweaked reveal key
(`commitAddress`), the address classification of the payment script
(`paymentAddressType`), the fetched fee rate (`feeRate`) and confirmed
cardinal UTXO list (`utxos`), and the dry-run reveal virtual size
(`revealVSize`).  The PSBT input records are per-address-type wrappers of
external library data and are not modelled; the output list (address, value)
is.  Returns `none` when `selectUtxos` throws; otherwise the output list and
the estimated reveal fee, mirroring the source's `[psbt, estimatedRevealFee]`. -/
def getCommitTransaction (inscriptions : List Inscription) (paymentAddress : String)
    (commitAddress : String) (paymentAddressType : AddressType) (feeRate : ℚ)
    (revealVSize : ℚ) (utxos : List Utxo) : Option (List (String × ℚ) × ℚ) :=
  let estimatedCommitFeeForHeaderAndOutputs : ℚ := (10.5 + 2 * 43) * feeRate
  let total_postage : Int := postageSum inscriptions
  let estimatedRevealFee : ℚ := mathCeil (revealVSize * feeRate + (total_postage : ℚ))
  let adjustedUtxos := appendUtxoEffectiveValues utxos paymentAddressType feeRate
  match selectUtxos adjustedUtxos (estimatedRevealFee + estimatedCommitFeeForHeaderAndOutputs) with
  | none => none
  | some selectedUtxos =>
    let estimatedCommitFeeForInputs : ℚ :=
      (selectedUtxos.map (fun u => u.value - u.effectiveValue)).sum
    let estimatedCommitFee : ℚ :=
      mathCeil (estimatedCommitFeeForHeaderAndOutputs + estimatedCommitFeeForInputs)
    let estimatedInscriptionFee : ℚ := estimatedCommitFee + estimatedRevealFee
    let change : ℚ := valueSum selectedUtxos - estimatedInscriptionFee
    let outputs : List (String × ℚ) :=
      (commitAddress, estimatedRevealFee) ::
        (if 546 ≤ change then [(paymentAddress, change)] else [])
    some (outputs, estimatedRevealFee)

/-- The fields of a connected `Wallet` (wallets.js:209) that
`getInscriptionCreationMethod` inspects.  The `isP2TR` / `isP2WPKH` script
predicates are external library calls on the wallet's payment and ordinals
addresses; their results are snapshot here as booleans. -/
structure WalletState where
  supportsCustomAddressSigning : Bool
  supportsKeyPathSigning : Bool
  paymentIsP2TR : Bool
  paymentIsP2WPKH : Bool
  ordinalsIsP2TR : Bool
deriving DecidableEq, Repr

/-- `Wallet.getInscriptionCreationMethod` (wallets.js:332): no taproot
address anywhere means an ephemeral key; a wallet that cannot sign custom
addresses keeps custody via its key path; otherwise a p2tr/p2wpkh payment
address permits extracting the commit txid before signing (one sign), and a
legacy or nested payment address does not (two sign).
`supportsKeyPathSigning` is never consulted. -/
def getInscriptionCreationMethod (w : WalletState) : String :=
  if !(w.paymentIsP2TR || w.ordinalsIsP2TR) then "ephemeral"
  else if !w.supportsCustomAddressSigning then "ephemeral_with_wallet_key_path"
  else if w.paymentIsP2TR || w.paymentIsP2WPKH then "wallet_one_sign"
  else "wallet_two_sign"

/-- The three inscription-creation flow functions that `createInscriptions`
(App.jsx:276) can invoke. -/
inductive InscriptionFlow where
  | ephemeralKey
  | tweakedKeyOneSign
  | tweakedKeyTwoSign
deriving DecidableEq, Repr

/-- The dispatch performed by `createInscriptions` (App.jsx:306): compare the
wallet's `creationMethod` string against three literals and run the matching
flow.  `none` means no comparison matched and no flow function is invoked. -/
def createInscriptionsDispatch (creationMethod : String) : Option InscriptionFlow :=
  if creationMethod = "ephemeral_key" then some .ephemeralKey
  else if creationMethod = "tweaked_key_one_sign" then some .tweakedKeyOneSign
  else if creationMethod = "tweaked_key_two_sign" then some .tweakedKeyTwoSign
  else none

/-! ### Helper lemmas for the coin selector -/

/-- Soundness predicate for the branch-and-bound search state: any recorded
best solution covers the target. -/
def stSound (target : ℚ) (st : BnbState) : Prop :=
  ∀ b w, st = some (b, w) → target ≤ effSum b

lemma effSum_append (l1 l2 : List Utxo) : effSum (l1 ++ l2) = effSum l1 + effSum l2 := by
  simp [effSum]

lemma effSum_nonneg {l : List Utxo} (h : ∀ u ∈ l, 0 ≤ u.effectiveValue) : 0 ≤ effSum l := by
  refine List.sum_nonneg ?_
  intro x hx
  obtain ⟨u, hu, rfl⟩ := List.mem_map.mp hx
  exact h u hu

lemma le_effSum_of_mem {l : List Utxo} (h : ∀ u ∈ l, 0 ≤ u.effectiveValue) {u : Utxo}
    (hu : u ∈ l) : u.effectiveValue ≤ effSum l :=
  List.single_le_sum (by
    intro x hx
    obtain ⟨v, hv, rfl⟩ := List.mem_map.mp hx
    exact h v hv) _ (List.mem_map_of_mem _ hu)

lemma updateBest_sound {target : ℚ} {selected : List Utxo} {waste : ℚ} {st : BnbState}
    (hsel : target ≤ effSum selected) (hst : stSound target st) :
    stSound target (updateBest selected waste st) := by
  intro b w hbw
  rcases st with _ | ⟨b0, w0⟩
  · simp only [updateBest, Option.some.injEq, Prod.mk.injEq] at hbw
    rw [← hbw.1]
    exact hsel
  · simp only [updateBest] at hbw
    by_cases hlt : waste < w0
    · rw [if_pos hlt] at hbw
      simp only [Option.some.injEq, Prod.mk.injEq] at hbw
      rw [← hbw.1]
      exact hsel
    · rw [if_neg hlt] at hbw
      simp only [Option.some.injEq, Prod.mk.injEq] at hbw
      rw [← hbw.1]
      exact hst b0 w0 rfl

lemma foldl_stSound {target : ℚ} {g : BnbState → Utxo × List Utxo → BnbState}
    (hg : ∀ st p, stSound target st → stSound target (g st p)) :
    ∀ (ps : List (Utxo × List Utxo)) (st : BnbState),
      stSound target st → stSound target (ps.foldl g st) := by
  intro ps
  induction ps with
  | nil => intro st h; simpa using h
  | cons p rest ih =>
    intro st h
    simp only [List.foldl_cons]
    exact ih _ (hg _ _ h)

lemma explore_sound (target : ℚ) :
    ∀ (fuel : Nat) (remaining selected : List Utxo) (currentSum : ℚ) (depth : Nat)
      (st : BnbState), currentSum = effSum selected → stSound target st →
      stSound target (explore target fuel remaining selected currentSum depth st) := by
  intro fuel
  induction fuel with
  | zero =>
    intro remaining selected currentSum depth st hsum hst
    unfold explore
    split_ifs with h1 h2 h3
    · exact updateBest_sound (hsum ▸ h1) hst
    · exact hst
    · exact hst
    · exact hst
  | succ fuel' ih =>
    intro remaining selected currentSum depth st hsum hst
    unfold explore
    split_ifs with h1 h2 h3
    · exact updateBest_sound (hsum ▸ h1) hst
    · exact hst
    · exact hst
    · exact foldl_stSound
        (fun st' p hst' =>
          ih p.2 (selected ++ [p.1]) (currentSum + p.1.effectiveValue) (depth + 1) st'
            (by rw [effSum_append, hsum]; simp [effSum]) hst')
        _ st hst

/-- Coverage of the branch-and-bound result: a returned subset always reaches
the target. -/
lemma branchAndBound_coverage {utxos : List Utxo} {targetAmount : ℚ} {sel : List Utxo}
    (h : branchAndBound utxos targetAmount = some sel) : targetAmount ≤ effSum sel := by
  simp only [branchAndBound, Option.map_eq_some'] at h
  obtain ⟨⟨b, w⟩, hr, rfl⟩ := h
  exact explore_sound targetAmount utxos.length utxos [] 0 0 none (by simp [effSum])
    (by intro b' w' hbw; simp at hbw) b w hr

lemma accumGo_sound (target : ℚ) :
    ∀ (l selected : List Utxo) (total : ℚ), total = effSum selected →
      ∀ sel, accumGo target l selected total = some sel → target ≤ effSum sel := by
  intro l
  induction l with
  | nil => intro selected total _ sel h; simp [accumGo] at h
  | cons u rest ih =>
    intro selected total htot sel h
    simp only [accumGo] at h
    by_cases hc : target ≤ total + u.effectiveValue
    · rw [if_pos hc] at h
      simp only [Option.some.injEq] at h
      rw [← h, effSum_append, ← htot]
      simpa [effSum] using hc
    · rw [if_neg hc] at h
      exact ih (selected ++ [u]) (total + u.effectiveValue)
        (by rw [effSum_append, htot]; simp [effSum]) sel h

lemma accumGo_none (target : ℚ) :
    ∀ (l selected : List Utxo) (total : ℚ), (∀ u ∈ l, 0 ≤ u.effectiveValue) →
      total + effSum l < target → accumGo target l selected total = none := by
  intro l
  induction l with
  | nil => intro selected total _ _; simp [accumGo]
  | cons u rest ih =>
    intro selected total hnn hlt
    have hrest : 0 ≤ effSum rest := effSum_nonneg (fun v hv => hnn v (List.mem_cons_of_mem u hv))
    have hcons : effSum (u :: rest) = u.effectiveValue + effSum rest := by simp [effSum]
    simp only [accumGo]
    rw [if_neg (by rw [hcons] at hlt; intro hcontra; nlinarith)]
    exact ih (selected ++ [u]) (total + u.effectiveValue)
      (fun v hv => hnn v (List.mem_cons_of_mem u hv))
      (by rw [hcons] at hlt; linarith)

lemma insertByEff_perm (u : Utxo) : ∀ l, (insertByEff u l).Perm (u :: l) := by
  intro l
  induction l with
  | nil => simp [insertByEff]
  | cons v rest ih =>
    simp only [insertByEff]
    split
    · exact List.Perm.refl _
    · exact (List.Perm.cons v ih).trans (List.Perm.swap u v rest)

lemma sortByEff_perm : ∀ l, (sortByEff l).Perm l := by
  intro l
  induction l with
  | nil => exact List.Perm.refl _
  | cons u rest ih => exact (insertByEff_perm u (sortByEff rest)).trans (List.Perm.cons u ih)

lemma sortByEff_effSum (l : List Utxo) : effSum (sortByEff l) = effSum l :=
  List.Perm.sum_eq (List.Perm.map _ (sortByEff_perm l))

lemma sortByEff_mem {l : List Utxo} {u : Utxo} : u ∈ sortByEff l ↔ u ∈ l :=
  (sortByEff_perm l).mem_iff

/-! ### Claims C1 - C3: the coin selector -/

/-- Concrete UTXOs used in counterexamples and witnesses. -/
def uxA : Utxo := ⟨"a", 0, 1, 1⟩

def uxB : Utxo := ⟨"b", 0, 1, 1⟩

def uxC : Utxo := ⟨"c", 0, 1, 1⟩

def uxD : Utxo := ⟨"d", 0, 4, 4⟩

def uxNeg : Utxo := ⟨"n", 0, 100, -5⟩

def uxThree : Utxo := ⟨"e", 0, 3, 3⟩

def uxOne : Utxo := ⟨"f", 0, 1, 1⟩

def uxTwo : Utxo := ⟨"g", 0, 2, 2⟩

/-- C1, counterexample: for the UTXO list with effective values `[1, 1, 1]`
and target `3`, a subset (the whole list) reaches the target, yet
`branchAndBound` returns `null`: the too-deep prune
(`depth > remainingUtxos.length`) cuts off solutions that use the tail of the
candidate list, refuting both "returns null only when no subset reaches the
target" and global minimality. -/
theorem C1_counterexample :
    (∃ s : List Utxo, s.Sublist [uxA, uxB, uxC] ∧ 3 ≤ effSum s)
    ∧ branchAndBound [uxA, uxB, uxC] 3 = none := by
  constructor
  · exact ⟨[uxA, uxB, uxC], List.Sublist.refl _, by norm_num [effSum, uxA, uxB, uxC]⟩
  · norm_num [branchAndBound, explore, pairsWithRest, updateBest, effSum, uxA, uxB, uxC]

/-- C1 (amended): whenever `branchAndBound` returns a subset, that subset's
effective-value sum is at least the target, i.e. its waste is non-negative.
(The original claim's completeness and global minimality fail: see the
counterexample.) -/
theorem C1_branchAndBound_coverage (utxos : List Utxo) (targetAmount : ℚ) (sel : List Utxo)
    (h : branchAndBound utxos targetAmount = some sel) : targetAmount ≤ effSum sel :=
  branchAndBound_coverage h

/-- C1, witness: the amended theorem applied at the singleton list with
effective value `4` and target `3`. -/
theorem C1_witness : 3 ≤ effSum [uxD] :=
  C1_branchAndBound_coverage [uxD] 3 [uxD]
    (by norm_num [branchAndBound, explore, pairsWithRest, updateBest, effSum, uxD])

/-- C2, counterexample: with effective values `[-5, 3]` (a UTXO's effective
value may be negative at high fee rates) and target `3`, the sum of all
effective values is `-2 < 3`, yet `selectUtxos` does not throw: the
exact-match step returns the UTXO with effective value `3`. -/
theorem C2_counterexample :
    effSum [uxNeg, uxThree] < 3 ∧ selectUtxos [uxNeg, uxThree] 3 = some [uxThree] := by
  constructor
  · norm_num [effSum, uxNeg, uxThree]
  · norm_num [selectUtxos, exactMatch, sortByEff, insertByEff, branchAndBound, explore,
      pairsWithRest, updateBest, effSum, accumGo, List.find?, uxNeg, uxThree]

/-- C2 (amended): (1) whenever `selectUtxos` returns (does not throw), the
returned UTXOs' effective values sum to at least the target; (2) when all
effective values are non-negative — the case the spec sentence is about —
a total effective value below the target always yields the
insufficient-funds error.  (With negative effective values part (2) fails:
see the counterexample.) -/
theorem C2_selectUtxos_coverage :
    (∀ (utxos : List Utxo) (targetAmount : ℚ) (sel : List Utxo),
      selectUtxos utxos targetAmount = some sel → targetAmount ≤ effSum sel)
    ∧ (∀ (utxos : List Utxo) (targetAmount : ℚ),
        (∀ u ∈ utxos, 0 ≤ u.effectiveValue) → effSum utxos < targetAmount →
        selectUtxos utxos targetAmount = none) := by
  constructor
  · intro utxos targetAmount sel h
    simp only [selectUtxos] at h
    cases hexact : exactMatch (sortByEff utxos) targetAmount with
    | some u =>
      rw [hexact] at h
      simp only [Option.some.injEq] at h
      have hprop := List.find?_some hexact
      rw [decide_eq_true_eq] at hprop
      rw [← h]
      simp [effSum, hprop]
    | none =>
      rw [hexact] at h
      cases hbnb : branchAndBound (sortByEff utxos) targetAmount with
      | some s =>
        rw [hbnb] at h
        simp only [Option.some.injEq] at h
        rw [← h]
        exact branchAndBound_coverage hbnb
      | none =>
        rw [hbnb] at h
        exact accumGo_sound targetAmount (sortByEff utxos) [] 0 (by simp [effSum]) sel h
  · intro utxos targetAmount hnn hlt
    have hnn' : ∀ u ∈ sortByEff utxos, 0 ≤ u.effectiveValue :=
      fun u hu => hnn u (sortByEff_mem.mp hu)
    have hsum : effSum (sortByEff utxos) < targetAmount := by
      rw [sortByEff_effSum]; exact hlt
    have htpos : 0 < targetAmount := lt_of_le_of_lt (effSum_nonneg hnn) hlt
    have hexact : exactMatch (sortByEff utxos) targetAmount = none := by
      apply List.find?_eq_none.mpr
      intro u hu hdec
      rw [decide_eq_true_eq] at hdec
      have hle : u.effectiveValue ≤ effSum utxos :=
        le_effSum_of_mem hnn (sortByEff_mem.mp hu)
      rw [hdec] at hle
      exact absurd (lt_of_le_of_lt hle hlt) (lt_irrefl _)
    have hbnb : branchAndBound (sortByEff utxos) targetAmount = none := by
      unfold branchAndBound explore
      rw [if_neg (by intro hc; linarith), if_pos (by rw [zero_add]; exact hsum)]
      rfl
    have hacc : accumGo targetAmount (sortByEff utxos) [] 0 = none :=
      accumGo_none targetAmount (sortByEff utxos) [] 0 hnn' (by rw [zero_add]; exact hsum)
    simp only [selectUtxos, hexact, hbnb, hacc]

/-- C2, witness: part (1) at the singleton list with effective value `4` and
target `3`; part (2) at the singleton list with effective value `1` and
target `5`. -/
theorem C2_witness : 3 ≤ effSum [uxD] ∧ selectUtxos [uxOne] 5 = none := by
  constructor
  · exact C2_selectUtxos_coverage.1 [uxD] 3 [uxD]
      (by norm_num [selectUtxos, exactMatch, sortByEff, insertByEff, branchAndBound, explore,
        pairsWithRest, updateBest, effSum, accumGo, List.find?, uxD])
  · exact C2_selectUtxos_coverage.2 [uxOne] 5
      (by intro u hu; simp only [List.mem_singleton] at hu; rw [hu]; norm_num [uxOne])
      (by norm_num [effSum, uxOne])

/-- C3, counterexample: with effective values `[1, 2]` and target `3`, the
subset `{1, 2}` sums exactly to the target, but `selectUtxos` returns that
two-element subset (found by branch and bound), not a single-element exact
match: the exact-match step only ever inspects single UTXOs. -/
theorem C3_counterexample :
    effSum [uxOne, uxTwo] = 3
    ∧ selectUtxos [uxOne, uxTwo] 3 = some [uxOne, uxTwo]
    ∧ (selectUtxos [uxOne, uxTwo] 3).map List.length = some 2 := by
  refine ⟨by norm_num [effSum, uxOne, uxTwo], ?_, ?_⟩ <;>
    norm_num [selectUtxos, exactMatch, sortByEff, insertByEff, branchAndBound, explore,
      pairsWithRest, updateBest, effSum, accumGo, List.find?, uxOne, uxTwo]

/-- C3 (amended): when some single UTXO's effective value equals the target
exactly, `selectUtxos` returns a single-element list whose element's
effective value equals the target — the exact-match scan runs before branch
and bound is considered. -/
theorem C3_exactMatch_single (utxos : List Utxo) (targetAmount : ℚ)
    (h : ∃ u ∈ utxos, u.effectiveValue = targetAmount) :
    ∃ u, selectUtxos utxos targetAmount = some [u] ∧ u.effectiveValue = targetAmount := by
  obtain ⟨u, hu, hequ⟩ := h
  have hsome : (exactMatch (sortByEff utxos) targetAmount).isSome := by
    rw [exactMatch, List.find?_isSome]
    exact ⟨u, sortByEff_mem.mpr hu, by simp [hequ]⟩
  obtain ⟨u', hfind⟩ := Option.isSome_iff_exists.mp hsome
  have hprop := List.find?_some hfind
  rw [decide_eq_true_eq] at hprop
  exact ⟨u', by simp only [selectUtxos, hfind], hprop⟩

/-- C3, witness: the amended theorem applied at the singleton list with
effective value `2` and target `2`. -/
theorem C3_witness :
    ∃ u, selectUtxos [uxTwo] 2 = some [u] ∧ u.effectiveValue = 2 :=
  C3_exactMatch_single [uxTwo] 2 ⟨uxTwo, List.mem_singleton_self _, by norm_num [uxTwo]⟩

/-! ### Helper lemmas for the envelope encoder and reveal script builder -/

lemma chunkList_spec : ∀ (n : Nat) (l : List Nat), l.length ≤ n →
    (chunkList l).flatten = l
    ∧ (chunkList l).length = (l.length + 519) / 520
    ∧ ∀ c ∈ chunkList l, c.length ≤ 520 := by
  intro n
  induction n with
  | zero =>
    intro l hl
    have hnil : l = [] := List.eq_nil_of_length_eq_zero (Nat.le_zero.mp hl)
    subst hnil
    unfold chunkList
    simp
  | succ n ih =>
    intro l hl
    by_cases h : l = []
    · subst h
      unfold chunkList
      simp
    · have hpos : 0 < l.length := List.length_pos.mpr h
      have hdrop : (l.drop 520).length ≤ n := by
        rw [List.length_drop]
        omega
      obtain ⟨ihj, ihl, ihm⟩ := ih (l.drop 520) hdrop
      unfold chunkList
      rw [dif_neg h]
      refine ⟨?_, ?_, ?_⟩
      · simp only [List.flatten_cons, ihj, List.take_append_drop]
      · simp only [List.length_cons, ihl, List.length_drop]
        omega
      · intro c hc
        rcases List.mem_cons.mp hc with hc | hc
        · rw [hc, List.length_take]
          omega
        · exact ihm c hc

lemma revealGo_snd_length : ∀ (l : List Inscription) (i : Nat) (run : Int),
    ((revealGo l i run).2).length = l.length := by
  intro l
  induction l with
  | nil => intro i run; rfl
  | cons insc rest ih => intro i run; simp only [revealGo, List.length_cons, ih]

lemma revealGo_snd_get? : ∀ (l : List Inscription) (i : Nat) (run : Int) (j : Nat),
    ((revealGo l i run).2).get? j
      = (l.get? j).map (fun insc =>
          if 0 < i + j then { insc with pointer := some (run + postageSum (l.take j)) }
          else insc) := by
  intro l
  induction l with
  | nil => intro i run j; simp [revealGo]
  | cons insc rest ih =>
    intro i run j
    cases j with
    | zero =>
      simp only [revealGo, List.get?_cons_zero, Option.map_some', Nat.add_zero,
        List.take_zero, postageSum, List.map_nil, List.sum_nil, Int.add_zero]
    | succ j' =>
      have hpost : (if 0 < i then { insc with pointer := some run } else insc).postage
          = insc.postage := by
        split <;> rfl
      simp only [revealGo, List.get?_cons_succ, List.take_succ_cons]
      rw [ih]
      cases hrest : rest.get? j' with
      | none => simp
      | some insc2 =>
        have h1 : 0 < i + 1 + j' := by omega
        have h2 : 0 < i + (j' + 1) := by omega
        simp only [Option.map_some']
        rw [if_pos h1, if_pos h2]
        have heq : run + (if 0 < i then { insc with pointer := some run } else insc).postage
            + postageSum (rest.take j')
            = run + postageSum (insc :: rest.take j') := by
          rw [hpost]
          simp only [postageSum, List.map_cons, List.sum_cons]
          ring
        rw [heq]

/-! ### Claims C4 and C5: envelope content chunks, pointer assignment -/

/-- C4: for an inscription whose content has length `L` and whose optional
fields are all absent, the envelope is exactly the prologue
(`OP_0`, `OP_IF`, the `"ord"` marker, and — when content is non-empty — the
empty-push separator), the `⌈L/520⌉` content chunks in order, and `OP_ENDIF`;
each chunk has at most 520 bytes and their concatenation is the original
content. -/
theorem C4_envelope_content_chunks (content : List Nat) (postage : Int) :
    Inscription.getInscriptionScript
        { content := some content, postage := postage }
      = [ScriptElem.op "OP_0", ScriptElem.op "OP_IF", ScriptElem.bytes (textEncode "ord")]
        ++ (if 0 < content.length then
              ScriptElem.op "OP_0" :: (chunkList content).map ScriptElem.bytes
            else [])
        ++ [ScriptElem.op "OP_ENDIF"]
    ∧ (chunkList content).length = (content.length + 519) / 520
    ∧ (∀ c ∈ chunkList content, c.length ≤ 520)
    ∧ (chunkList content).flatten = content := by
  obtain ⟨hj, hl, hm⟩ := chunkList_spec content.length content (Nat.le_refl _)
  exact ⟨by simp [Inscription.getInscriptionScript], hl, hm, hj⟩

/-- C5: after `getRevealScript` runs on a list of at least two inscriptions,
the updated list has the same length, every inscription at index `i > 0` has
its pointer set to the postage sum of inscriptions `0..i-1`, and the first
inscription's pointer is unchanged. -/
theorem C5_pointer_assignment (inscriptions : List Inscription) (revealPublicKey : List Nat)
    (h2 : 2 ≤ inscriptions.length) :
    ((getRevealScript inscriptions revealPublicKey).2).length = inscriptions.length
    ∧ (∀ i, 0 < i →
        (((getRevealScript inscriptions revealPublicKey).2).get? i).map
            (fun insc => insc.pointer)
          = (inscriptions.get? i).map (fun _ => some (postageSum (inscriptions.take i))))
    ∧ (((getRevealScript inscriptions revealPublicKey).2).get? 0).map
          (fun insc => insc.pointer)
        = (inscriptions.get? 0).map (fun insc => insc.pointer) := by
  refine ⟨?_, ?_, ?_⟩
  · simp only [getRevealScript]
    exact revealGo_snd_length inscriptions 0 0
  · intro i hi
    simp only [getRevealScript]
    rw [revealGo_snd_get?]
    cases hins : inscriptions.get? i with
    | none => rfl
    | some insc =>
      simp only [Option.map_some']
      rw [if_pos (by omega)]
      simp
  · simp only [getRevealScript]
    rw [revealGo_snd_get?]
    cases hins : inscriptions.get? 0 with
    | none => rfl
    | some insc =>
      simp only [Option.map_some']
      rw [if_neg (by omega)]

/-- The two concrete inscriptions of the C5 witness. -/
def inscW1 : Inscription := { contentType := some "text/plain", postage := 546 }

def inscW2 : Inscription := { contentType := some "text/plain", postage := 330 }

/-- C5, witness: on a two-inscription list with postages `[546, 330]`, the
second inscription's pointer after `getRevealScript` is `546`. -/
theorem C5_witness :
    (((getRevealScript [inscW1, inscW2] [7]).2).get? 1).map (fun insc => insc.pointer)
      = some (some 546) := by
  have h := (C5_pointer_assignment [inscW1, inscW2] [7] (by norm_num)).2.1 1 (by norm_num)
  rw [h]
  simp [postageSum, inscW1]

/-! ### Claim C6: the commit transaction template -/

/-- C6: for every successful run of `getCommitTransaction` (i.e. whenever the
embedded `selectUtxos` returns a selection `sel`), output 0 pays the commit
address exactly the estimated reveal fee
`ceil(revealVSize * feeRate + total postage)`, and a change output to the
payment address is present exactly when the leftover — selected value sum
minus estimated commit fee minus estimated reveal fee — is at least the dust
threshold 546. -/
theorem C6_commit_outputs (inscriptions : List Inscription)
    (paymentAddress commitAddress : String) (paymentAddressType : AddressType)
    (feeRate revealVSize : ℚ) (utxos : List Utxo) (sel : List Utxo)
    (hsel : selectUtxos (appendUtxoEffectiveValues utxos paymentAddressType feeRate)
        (mathCeil (revealVSize * feeRate + (postageSum inscriptions : ℚ))
          + (10.5 + 2 * 43) * feeRate) = some sel) :
    getCommitTransaction inscriptions paymentAddress commitAddress paymentAddressType feeRate
        revealVSize utxos
      = some
          ((commitAddress, mathCeil (revealVSize * feeRate + (postageSum inscriptions : ℚ)))
            :: (if 546 ≤ valueSum sel
                    - mathCeil ((10.5 + 2 * 43) * feeRate
                        + (sel.map (fun u => u.value - u.effectiveValue)).sum)
                    - mathCeil (revealVSize * feeRate + (postageSum inscriptions : ℚ))
                then [(paymentAddress,
                        valueSum sel
                          - mathCeil ((10.5 + 2 * 43) * feeRate
                              + (sel.map (fun u => u.value - u.effectiveValue)).sum)
                          - mathCeil (revealVSize * feeRate + (postageSum inscriptions : ℚ)))]
                else []),
            mathCeil (revealVSize * feeRate + (postageSum inscriptions : ℚ)))
    ∧ ((getCommitTransaction inscriptions paymentAddress commitAddress paymentAddressType
          feeRate revealVSize utxos).map (fun r => r.1.length) = some 2
        ↔ 546 ≤ valueSum sel
            - mathCeil ((10.5 + 2 * 43) * feeRate
                + (sel.map (fun u => u.value - u.effectiveValue)).sum)
            - mathCeil (revealVSize * feeRate + (postageSum inscriptions : ℚ))) := by
  have hmain : getCommitTransaction inscriptions paymentAddress commitAddress
      paymentAddressType feeRate revealVSize utxos
      = some
          ((commitAddress, mathCeil (revealVSize * feeRate + (postageSum inscriptions : ℚ)))
            :: (if 546 ≤ valueSum sel
                    - mathCeil ((10.5 + 2 * 43) * feeRate
                        + (sel.map (fun u => u.value - u.effectiveValue)).sum)
                    - mathCeil (revealVSize * feeRate + (postageSum inscriptions : ℚ))
                then [(paymentAddress,
                        valueSum sel
                          - mathCeil ((10.5 + 2 * 43) * feeRate
                              + (sel.map (fun u => u.value - u.effectiveValue)).sum)
                          - mathCeil (revealVSize * feeRate + (postageSum inscriptions : ℚ)))]
                else []),
            mathCeil (revealVSize * feeRate + (postageSum inscriptions : ℚ))) := by
    simp only [getCommitTransaction]
    rw [hsel]
    simp only [sub_sub]
  refine ⟨hmain, ?_⟩
  rw [hmain]
  by_cases hc : 546 ≤ valueSum sel
      - mathCeil ((10.5 + 2 * 43) * feeRate
          + (sel.map (fun u => u.value - u.effectiveValue)).sum)
      - mathCeil (revealVSize * feeRate + (postageSum inscriptions : ℚ))
  · simp [hc]
  · simp [hc]

/-- The funding UTXO of the C6 witness. -/
def uxFund : Utxo := ⟨"w", 0, 1000, 1000⟩

/-- C6, witness: no inscriptions, fee rate 0, reveal vsize 0, one 1000-sat
UTXO.  The selector returns the empty selection (waste 0), the commit output
pays the reveal fee 0, and the leftover 0 is below dust, so no change output
is added. -/
theorem C6_witness :
    getCommitTransaction [] "pay" "commit" AddressType.P2TR 0 0 [uxFund]
      = some ([("commit", 0)], 0) := by
  have h := (C6_commit_outputs [] "pay" "commit" AddressType.P2TR 0 0 [uxFund] []
    (by norm_num [selectUtxos, exactMatch, sortByEff, insertByEff, branchAndBound, explore,
      pairsWithRest, updateBest, effSum, accumGo, List.find?, appendUtxoEffectiveValues,
      inputVSize, mathCeil, postageSum, uxFund])).1
  norm_num [mathCeil, valueSum, postageSum] at h
  exact h

/-! ### Claims C7, C9: the signing-flow dispatch -/

/-- C7 (code bug): for the wallet capability
`{supportsCustomAddressSigning := true, supportsKeyPathSigning := false}`
with a taproot ordinals address and a legacy payment address,
`getInscriptionCreationMethod` returns `"wallet_two_sign"`, but the dispatch
in `createInscriptions` compares against `"tweaked_key_two_sign"` (and
`"ephemeral_key"`, `"tweaked_key_one_sign"`), so no signing flow is selected
and the wallet's sign operation is never invoked — instead of the Two-sign
flow with exactly two signing calls that the spec describes (and that
`createInscriptionsWithTweakedKeyTwoSign` implements). -/
theorem C7_two_sign_dispatch_dead :
    getInscriptionCreationMethod
        { supportsCustomAddressSigning := true, supportsKeyPathSigning := false,
          paymentIsP2TR := false, paymentIsP2WPKH := false, ordinalsIsP2TR := true }
      = "wallet_two_sign"
    ∧ createInscriptionsDispatch
        (getInscriptionCreationMethod
          { supportsCustomAddressSigning := true, supportsKeyPathSigning := false,
            paymentIsP2TR := false, paymentIsP2WPKH := false, ordinalsIsP2TR := true })
      = none := by
  constructor <;> decide

/-- C9: for every connected wallet, `getInscriptionCreationMethod` returns
one of the four strings `"ephemeral"`, `"ephemeral_with_wallet_key_path"`,
`"wallet_one_sign"`, `"wallet_two_sign"`, none of which is among the three
strings `createInscriptions` dispatches on; consequently
`createInscriptions` invokes none of the three flow functions for any wallet
capability or address configuration. -/
theorem C9_dispatch_never_fires (w : WalletState) :
    (getInscriptionCreationMethod w = "ephemeral"
      ∨ getInscriptionCreationMethod w = "ephemeral_with_wallet_key_path"
      ∨ getInscriptionCreationMethod w = "wallet_one_sign"
      ∨ getInscriptionCreationMethod w = "wallet_two_sign")
    ∧ createInscriptionsDispatch (getInscriptionCreationMethod w) = none := by
  obtain ⟨a, b, c, d, e⟩ := w
  cases a <;> cases b <;> cases c <;> cases d <;> cases e <;> decide

/-! ### Claims C8 and C10: encoder failure modes and the zero pointer -/

/-- Shared helper: whenever the pointer field holds a non-positive value, the
envelope contains the pointer tag `2` immediately followed by an empty byte
push. -/
lemma pointer_tag_segment (insc : Inscription) (p : Int) (hp : insc.pointer = some p)
    (hnp : ¬ 0 < p) :
    ∃ pre suf, insc.getInscriptionScript
      = pre ++ ScriptElem.num 2 :: ScriptElem.bytes [] :: suf := by
  have hbytes : intToLeBytes p = [] := by
    unfold intToLeBytes
    rw [dif_neg hnp]
  refine ⟨[ScriptElem.op "OP_0", ScriptElem.op "OP_IF", ScriptElem.bytes (textEncode "ord")]
      ++ (match insc.contentType with
          | some ct => [ScriptElem.num 1, ScriptElem.bytes (textEncode ct)]
          | none => []),
    (match insc.contentEncoding with
        | some ce => [ScriptElem.num 9, ScriptElem.bytes (textEncode ce)]
        | none => [])
      ++ (match insc.metaprotocol with
          | some mp => [ScriptElem.num 7, ScriptElem.bytes (textEncode mp)]
          | none => [])
      ++ (match insc.delegate with
          | some d => [ScriptElem.num 11, ScriptElem.bytes (getDelegateBytes d)]
          | none => [])
      ++ (match insc.content with
          | some c =>
            if 0 < c.length then ScriptElem.op "OP_0" :: (chunkList c).map ScriptElem.bytes
            else []
          | none => [])
      ++ [ScriptElem.op "OP_ENDIF"], ?_⟩
  simp [Inscription.getInscriptionScript, hp, hbytes]

/-- C8, counterexample: the inscription with pointer `-1` (a caller-contract
violation) is not rejected: `getInscriptionScript` returns an ordinary
envelope, silently encoding the violating pointer as tag `2` with an empty
payload; no `InvalidInscriptionField` error exists anywhere in the encoder. -/
theorem C8_counterexample :
    Inscription.getInscriptionScript { pointer := some (-1) }
      = [ScriptElem.op "OP_0", ScriptElem.op "OP_IF", ScriptElem.bytes (textEncode "ord"),
         ScriptElem.num 2, ScriptElem.bytes [], ScriptElem.op "OP_ENDIF"] := by
  simp [Inscription.getInscriptionScript, intToLeBytes]

/-- C8 (amended): the envelope encoder is total and never raises: a
caller-contract violation such as a negative pointer is silently encoded —
the envelope carries the pointer tag `2` with an empty payload — rather than
being rejected with an `InvalidInscriptionField` error. -/
theorem C8_encoder_silent_on_violations (insc : Inscription) (p : Int)
    (hp : insc.pointer = some p) (hneg : p < 0) :
    ∃ pre suf, insc.getInscriptionScript
      = pre ++ ScriptElem.num 2 :: ScriptElem.bytes [] :: suf :=
  pointer_tag_segment insc p hp (by omega)

/-- C8, witness: the amended theorem applied to the inscription whose only
set field is the (violating) pointer `-2`. -/
theorem C8_witness :
    ∃ pre suf, Inscription.getInscriptionScript { pointer := some (-2) }
      = pre ++ ScriptElem.num 2 :: ScriptElem.bytes [] :: suf :=
  C8_encoder_silent_on_violations { pointer := some (-2) } (-2) rfl (by norm_num)

/-- C10: for every inscription whose pointer is set to a non-positive value,
`intToLeBytes` returns the empty buffer, and `getInscriptionScript` emits the
pointer tag `2` followed by an empty payload — the tag is neither omitted nor
rejected. -/
theorem C10_zero_pointer_empty_payload (insc : Inscription) (p : Int)
    (hp : insc.pointer = some p) (hle : p ≤ 0) :
    intToLeBytes p = []
    ∧ ∃ pre suf, insc.getInscriptionScript
        = pre ++ ScriptElem.num 2 :: ScriptElem.bytes [] :: suf := by
  constructor
  · unfold intToLeBytes
    rw [dif_neg (by omega)]
  · exact pointer_tag_segment insc p hp (by omega)

/-- C10, witness: at pointer `0`, the encoding is empty and the tag-2 /
empty-payload pair is present in the envelope. -/
theorem C10_witness :
    intToLeBytes 0 = []
    ∧ ∃ pre suf, Inscription.getInscriptionScript { pointer := some 0 }
        = pre ++ ScriptElem.num 2 :: ScriptElem.bytes [] :: suf :=
  C10_zero_pointer_empty_payload { pointer := some 0 } 0 rfl (by norm_num)
